import Mathlib

/-!
Shallow embedding of the RealNVP-style normalizing flow in
`week3/code/a3_nf_template.py`, over exact real arithmetic.
Vectors of dimension `D` are functions `Fin D → ℝ`; the per-example
log-determinant accumulator is a single real.
-/

namespace NF

noncomputable section

/-- ReLU nonlinearity, `torch.nn.ReLU`. -/
def relu (x : ℝ) : ℝ := max x 0

/-- Logistic sigmoid, `torch.sigmoid`. -/
def sigmoid (x : ℝ) : ℝ := 1 / (1 + Real.exp (-x))

/-- An affine layer, `torch.nn.Linear`: weight matrix and bias vector. -/
structure Linear (nin nout : ℕ) where
  weight : Fin nout → Fin nin → ℝ
  bias : Fin nout → ℝ

/-- Application of an affine layer: `x ↦ W x + b`. -/
def Linear.apply {nin nout : ℕ} (l : Linear nin nout) (x : Fin nin → ℝ) :
    Fin nout → ℝ :=
  fun o => (∑ i, l.weight o i * x i) + l.bias o

/-- The coupling sub-network `self.nn`: Linear → ReLU → Linear → ReLU → Linear,
producing `2*D` outputs from `D` inputs ( `c_in = D`, hidden width `H`). -/
structure SubNet (D H : ℕ) where
  l1 : Linear D H
  l2 : Linear H H
  l3 : Linear H (2 * D)

/-- Run the sub-network on an input vector. -/
def SubNet.apply {D H : ℕ} (s : SubNet D H) (x : Fin D → ℝ) : Fin (2 * D) → ℝ :=
  s.l3.apply (fun j => relu (s.l2.apply (fun k => relu (s.l1.apply x k)) j))

/-- A coupling layer: fixed mask buffer plus the shared sub-network. -/
structure Coupling (D H : ℕ) where
  mask : Fin D → ℝ
  nn : SubNet D H

/-- The local `log_scale = tanh(out[:, :c_in])` of `Coupling.forward`, with
`out = self.nn(self.mask * z)`. -/
def Coupling.log_scale {D H : ℕ} (c : Coupling D H) (z : Fin D → ℝ) : Fin D → ℝ :=
  fun i => Real.tanh (c.nn.apply (fun j => c.mask j * z j) ⟨i.1, by have := i.isLt; omega⟩)

/-- The local `translate = out[:, c_in:]` of `Coupling.forward`. -/
def Coupling.translate {D H : ℕ} (c : Coupling D H) (z : Fin D → ℝ) : Fin D → ℝ :=
  fun i => c.nn.apply (fun j => c.mask j * z j) ⟨D + i.1, by have := i.isLt; omega⟩

/-- `Coupling.forward(z, ldj, reverse)`: the affine coupling transform.
Forward: `z' = mask*z + (1-mask)*(z*exp(log_scale) + translate)` and
`ldj' = ldj + Σ (1-mask)*log_scale`; reverse:
`z' = mask*z + (1-mask)*((z - translate)*exp(-log_scale))` with `ldj` untouched. -/
def Coupling.forward {D H : ℕ} (c : Coupling D H) (z : Fin D → ℝ) (ldj : ℝ)
    (reverse : Bool) : (Fin D → ℝ) × ℝ :=
  if reverse then
    (fun i => c.mask i * z i +
        (1 - c.mask i) * ((z i - c.translate z i) * Real.exp (-c.log_scale z i)),
      ldj)
  else
    (fun i => c.mask i * z i +
        (1 - c.mask i) * (z i * Real.exp (c.log_scale z i) + c.translate z i),
      ldj + ∑ i, (1 - c.mask i) * c.log_scale z i)

/-- The checkerboard mask of `get_mask()`: on the 28×28 grid flattened to
length 784, entry `28*i + j` is `1` when `(i + j) % 2 == 0`, else `0`. -/
def get_mask : Fin 784 → ℝ :=
  fun k => if (k.1 / 28 + k.1 % 28) % 2 = 0 then 1 else 0

/-- A flow: the ordered list of coupling layers (`self.layers`). -/
structure Flow (D H : ℕ) where
  layers : List (Coupling D H)

/-- `Flow.forward(z, logdet, reverse)`: forward folds the layers in order;
reverse folds them in reversed order, each with `reverse=True`. -/
def Flow.forward {D H : ℕ} (f : Flow D H) (z : Fin D → ℝ) (logdet : ℝ)
    (reverse : Bool) : (Fin D → ℝ) × ℝ :=
  if reverse then
    f.layers.reverse.foldl (fun p c => c.forward p.1 p.2 true) (z, logdet)
  else
    f.layers.foldl (fun p c => c.forward p.1 p.2 false) (z, logdet)

/-- `Flow.__init__` at an arbitrary later parameter state: `n_flows` blocks of
two couplings, using `get_mask` and its complement `1 - mask`; the sub-network
weights (mutated by training after construction) are arbitrary. -/
def Flow.make {H : ℕ} (n_flows : ℕ) (nets : ℕ → SubNet 784 H × SubNet 784 H) :
    Flow 784 H :=
  ⟨(List.range n_flows).flatMap fun i =>
    [⟨get_mask, (nets i).1⟩, ⟨fun j => 1 - get_mask j, (nets i).2⟩]⟩

/-- `Coupling.__init__`: the first two affine stages carry arbitrary (randomly
initialized) parameters, while the last stage has its weight and bias zeroed
by `self.nn[-1].weight.data.zero_()` and `self.nn[-1].bias.data.zero_()`. -/
def Coupling.construct {D H : ℕ} (mask : Fin D → ℝ) (w1 : Linear D H)
    (w2 : Linear H H) : Coupling D H :=
  ⟨mask, ⟨w1, w2, ⟨fun _ _ => 0, fun _ => 0⟩⟩⟩

/-- `Flow.__init__` immediately after construction: every coupling is freshly
constructed, so every last affine stage is zero. -/
def Flow.construct {H : ℕ} (n_flows : ℕ)
    (w : ℕ → (Linear 784 H × Linear H H) × (Linear 784 H × Linear H H)) :
    Flow 784 H :=
  ⟨(List.range n_flows).flatMap fun i =>
    [Coupling.construct get_mask (w i).1.1 (w i).1.2,
     Coupling.construct (fun j => 1 - get_mask j) (w i).2.1 (w i).2.2]⟩

/-- `log_prior(x)`: elementwise standard-Gaussian log-density summed over the
feature dimension. -/
def log_prior {D : ℕ} (x : Fin D → ℝ) : ℝ :=
  ∑ i, (-0.5 * Real.log (2 * Real.pi) - 0.5 * (x i * x i))

/-- `Model.logit_normalize(z, logdet, reverse)`.  Forward: divide by 256
(subtracting `log 256` per dimension from `logdet`), debias by
`z*(1-α) + α*0.5` with `α = 1e-5`, add the logit Jacobian
`Σ (-log z - log(1-z))` at the debiased point, then apply
`log z - log(1-z)`.  Reverse: add `Σ (log z + log(1-z))` at the incoming
point, apply the sigmoid, multiply by 256 and add `log 256` per dimension. -/
def logit_normalize {D : ℕ} (z : Fin D → ℝ) (logdet : ℝ) (reverse : Bool) :
    (Fin D → ℝ) × ℝ :=
  let alpha : ℝ := 1e-5
  if reverse then
    let logdet1 := logdet + ∑ i, (Real.log (z i) + Real.log (1 - z i))
    let z1 := fun i => sigmoid (z i)
    (fun i => z1 i * 256, logdet1 + Real.log 256 * D)
  else
    let z1 := fun i => z i / 256
    let logdet1 := logdet - Real.log 256 * D
    let z2 := fun i => z1 i * (1 - alpha) + alpha * 0.5
    let logdet2 := logdet1 + ∑ i, (-Real.log (z2 i) - Real.log (1 - z2 i))
    (fun i => Real.log (z2 i) - Real.log (1 - z2 i), logdet2)

/-- The model: it owns the flow (the dimensionality is fixed at 784). -/
structure Model (H : ℕ) where
  flow : Flow 784 H

/-- `Model.forward(input)` for one example, with the dequantization noise made
explicit: dequantize, logit-normalize with `ldj = 0`, run the flow forward, and
return `log_pz + ldj`. -/
def Model.forward {H : ℕ} (m : Model H) (noise : Fin 784 → ℝ)
    (input : Fin 784 → ℝ) : ℝ :=
  let z0 := fun i => input i + noise i
  let p1 := logit_normalize z0 0 false
  let p2 := m.flow.forward p1.1 p1.2 false
  log_prior p2.1 + p2.2

/-- `Model.sample` for one example, with the prior draw `z0` made explicit:
run the flow in reverse with `ldj = 0`, then reverse the logit normalization,
discarding the returned log-determinant. -/
def Model.sample {H : ℕ} (m : Model H) (z0 : Fin 784 → ℝ) : Fin 784 → ℝ :=
  let p1 := m.flow.forward z0 0 true
  (logit_normalize p1.1 p1.2 true).1

/-- A batch: a list of examples, each paired with its dequantization noise. -/
abbrev Batch := List ((Fin 784 → ℝ) × (Fin 784 → ℝ))

/-- The per-batch loss `-logp.mean(dim=0)` of `epoch_iter`. -/
def batch_loss {H : ℕ} (m : Model H) (b : Batch) : ℝ :=
  -((b.map fun ex => m.forward ex.2 ex.1).sum / b.length)

/-- `epoch_iter(model, data, optimizer)`: in training mode each batch
contributes its loss to the accumulator and then the optimizer updates the
parameters (the backward/clip/step mechanics are the abstract `step`); in
evaluation mode the parameters are fixed.  The accumulator is finally divided
by `len(data) * log 2 * 784`. -/
def epoch_iter {H : ℕ} (training : Bool) (step : Model H → Batch → Model H)
    (m : Model H) (data : List Batch) : ℝ :=
  let acc :=
    if training then
      (data.foldl (fun p b => (step p.1 b, p.2 + batch_loss p.1 b)) (m, 0)).2
    else
      data.foldl (fun s b => s + batch_loss m b) 0
  acc / (data.length * Real.log 2 * 784)

/-- Spec-side list of the per-batch losses of a training-mode epoch, each the
negated mean of the per-example log-likelihood at the parameter state current
when the batch is processed (the optimizer step follows the loss). -/
def train_losses {H : ℕ} (step : Model H → Batch → Model H) :
    Model H → List Batch → List ℝ
  | _, [] => []
  | m, b :: bs =>
    (-((b.map fun ex => m.forward ex.2 ex.1).sum / b.length))
      :: train_losses step (step m b) bs

/-- A one-dimensional coupling layer with mask `1` and an all-zero
sub-network, used to instantiate the general lemmas. -/
def unitCoupling : Coupling 1 1 :=
  ⟨fun _ => 1,
   ⟨⟨fun _ _ => 0, fun _ => 0⟩, ⟨fun _ _ => 0, fun _ => 0⟩,
    ⟨fun _ _ => 0, fun _ => 0⟩⟩⟩

section Lemmas

/-- The first component of one coupling step only depends on the first
component of the state. -/
lemma coupling_fst_congr {D H : ℕ} (c : Coupling D H) (r : Bool)
    {z w : Fin D → ℝ} (l l' : ℝ) (h : z = w) :
    (c.forward z l r).1 = (c.forward w l' r).1 := by
  cases r <;> simp [Coupling.forward, h]

/-- Folding coupling steps over a layer list: the `z` component of the result
only depends on the `z` component of the starting state. -/
lemma foldl_coupling_fst_congr {D H : ℕ} (r : Bool) :
    ∀ (ls : List (Coupling D H)) (p q : (Fin D → ℝ) × ℝ), p.1 = q.1 →
    (ls.foldl (fun s c => c.forward s.1 s.2 r) p).1
      = (ls.foldl (fun s c => c.forward s.1 s.2 r) q).1 := by
  intro ls
  induction ls with
  | nil => intro p q h; simpa using h
  | cons c t ih =>
    intro p q h
    simp only [List.foldl_cons]
    exact ih _ _ (coupling_fst_congr c r p.2 q.2 h)

/-- A freshly constructed coupling layer has zero `log_scale`: the last affine
stage is zero, so the sub-network output vanishes and `tanh 0 = 0`. -/
lemma coupling_construct_log_scale {D H : ℕ} (mask : Fin D → ℝ)
    (w1 : Linear D H) (w2 : Linear H H) (z : Fin D → ℝ) :
    (Coupling.construct mask w1 w2).log_scale z = fun _ => 0 := by
  funext i
  simp [Coupling.log_scale, Coupling.construct, SubNet.apply, Linear.apply,
    Real.tanh_zero]

/-- A freshly constructed coupling layer has zero `translate`. -/
lemma coupling_construct_translate {D H : ℕ} (mask : Fin D → ℝ)
    (w1 : Linear D H) (w2 : Linear H H) (z : Fin D → ℝ) :
    (Coupling.construct mask w1 w2).translate z = fun _ => 0 := by
  funext i
  simp [Coupling.translate, Coupling.construct, SubNet.apply, Linear.apply]

/-- A freshly constructed coupling layer is the identity on `(z, ldj)` in the
forward direction. -/
lemma coupling_construct_identity {D H : ℕ} (mask : Fin D → ℝ)
    (w1 : Linear D H) (w2 : Linear H H) (z : Fin D → ℝ) (ldj : ℝ) :
    (Coupling.construct mask w1 w2).forward z ldj false = (z, ldj) := by
  unfold Coupling.forward
  rw [coupling_construct_log_scale, coupling_construct_translate]
  refine Prod.ext ?_ ?_
  · funext i
    simp [Real.exp_zero]
    ring
  · simp

/-- Folding layers that each act as the identity is the identity. -/
lemma foldl_identity {D H : ℕ} :
    ∀ (ls : List (Coupling D H)),
    (∀ c ∈ ls, ∀ (z : Fin D → ℝ) (ldj : ℝ), c.forward z ldj false = (z, ldj)) →
    ∀ (p : (Fin D → ℝ) × ℝ), ls.foldl (fun s c => c.forward s.1 s.2 false) p = p := by
  intro ls
  induction ls with
  | nil => intro _ p; rfl
  | cons c t ih =>
    intro h p
    simp only [List.foldl_cons]
    rw [h c (by simp) p.1 p.2]
    exact ih (fun c' hc' => h c' (by simp [hc'])) p

/-- Every layer of a freshly constructed flow is a freshly constructed
coupling layer. -/
lemma flow_construct_layers {H : ℕ} (n_flows : ℕ)
    (w : ℕ → (Linear 784 H × Linear H H) × (Linear 784 H × Linear H H)) :
    ∀ c ∈ (Flow.construct n_flows w).layers,
      ∃ mask w1 w2, c = Coupling.construct mask w1 w2 := by
  intro c hc
  simp only [Flow.construct, List.mem_flatMap, List.mem_range] at hc
  obtain ⟨k, -, hk⟩ := hc
  simp only [List.mem_cons, List.mem_singleton, List.not_mem_nil, or_false] at hk
  rcases hk with h | h <;> exact ⟨_, _, _, h⟩

/-- The mask entries produced by `get_mask` are zeros and ones. -/
lemma get_mask_binary (j : Fin 784) : get_mask j = 0 ∨ get_mask j = 1 := by
  unfold get_mask
  split
  · exact Or.inr rfl
  · exact Or.inl rfl

/-- Every layer of a flow built by `Flow.make` carries a binary mask
(`get_mask` or its complement). -/
lemma flow_make_masks_binary {H : ℕ} (n_flows : ℕ)
    (nets : ℕ → SubNet 784 H × SubNet 784 H) :
    ∀ c ∈ (Flow.make n_flows nets).layers, ∀ i, c.mask i = 0 ∨ c.mask i = 1 := by
  intro c hc i
  simp only [Flow.make, List.mem_flatMap, List.mem_range] at hc
  obtain ⟨k, -, hk⟩ := hc
  simp only [List.mem_cons, List.mem_singleton, List.not_mem_nil, or_false] at hk
  rcases hk with h | h <;> subst h
  · exact get_mask_binary i
  · rcases get_mask_binary i with h0 | h0 <;> simp [h0]

/-- With a binary mask, the sub-network sees the same masked input before and
after the forward coupling transform. -/
lemma coupling_masked_input_invariant {D H : ℕ} (c : Coupling D H)
    (hmask : ∀ i, c.mask i = 0 ∨ c.mask i = 1) (z : Fin D → ℝ) (ldj : ℝ) :
    (fun j => c.mask j * (c.forward z ldj false).1 j) = fun j => c.mask j * z j := by
  funext j
  rcases hmask j with h | h <;> simp [Coupling.forward, h]

/-- With a binary mask, the reverse coupling transform undoes the forward one
on the `z` component, for arbitrary accumulator arguments. -/
lemma coupling_forward_then_reverse {D H : ℕ} (c : Coupling D H)
    (hmask : ∀ i, c.mask i = 0 ∨ c.mask i = 1) (z : Fin D → ℝ) (ldj ldj2 : ℝ) :
    (c.forward ((c.forward z ldj false).1) ldj2 true).1 = z := by
  have hmz := coupling_masked_input_invariant c hmask z ldj
  have hls : c.log_scale ((c.forward z ldj false).1) = c.log_scale z := by
    funext k
    simp only [Coupling.log_scale, hmz]
  have htr : c.translate ((c.forward z ldj false).1) = c.translate z := by
    funext k
    simp only [Coupling.translate, hmz]
  funext i
  have hwi : (c.forward ((c.forward z ldj false).1) ldj2 true).1 i
      = c.mask i * (c.forward z ldj false).1 i
        + (1 - c.mask i) * (((c.forward z ldj false).1 i
            - c.translate ((c.forward z ldj false).1) i)
          * Real.exp (-c.log_scale ((c.forward z ldj false).1) i)) := rfl
  have hfi : (c.forward z ldj false).1 i
      = c.mask i * z i
        + (1 - c.mask i) * (z i * Real.exp (c.log_scale z i) + c.translate z i) := rfl
  rw [hwi, hls, htr, hfi]
  rcases hmask i with h | h
  · rw [h]
    simp only [zero_mul, zero_add, sub_zero, one_mul]
    rw [add_sub_cancel_right, mul_assoc, ← Real.exp_add, add_neg_cancel,
      Real.exp_zero, mul_one]
  · rw [h]
    ring

/-- Reverse-folding a layer list undoes forward-folding it on the `z`
component, for arbitrary accumulator values, when every mask is binary. -/
lemma foldl_forward_then_reverse {D H : ℕ} :
    ∀ (ls : List (Coupling D H)),
    (∀ c ∈ ls, ∀ i, c.mask i = 0 ∨ c.mask i = 1) →
    ∀ (p : (Fin D → ℝ) × ℝ) (ldj2 : ℝ),
    (ls.reverse.foldl (fun s c => c.forward s.1 s.2 true)
        ((ls.foldl (fun s c => c.forward s.1 s.2 false) p).1, ldj2)).1 = p.1 := by
  intro ls
  induction ls with
  | nil => intro _ p ldj2; rfl
  | cons c t ih =>
    intro hm p ldj2
    have hmc : ∀ i, c.mask i = 0 ∨ c.mask i = 1 := hm c (by simp)
    have hmt : ∀ c' ∈ t, ∀ i, c'.mask i = 0 ∨ c'.mask i = 1 :=
      fun c' hc' => hm c' (by simp [hc'])
    simp only [List.foldl_cons, List.reverse_cons, List.foldl_append,
      List.foldl_nil]
    rw [ih hmt (c.forward p.1 p.2 false) ldj2]
    exact coupling_forward_then_reverse c hmc p.1 p.2 _

/-- The logistic sigmoid is positive. -/
lemma sigmoid_pos (x : ℝ) : 0 < sigmoid x := by
  unfold sigmoid
  have h : (0:ℝ) < 1 + Real.exp (-x) := by
    have := Real.exp_pos (-x)
    linarith
  exact div_pos one_pos h

/-- The logistic sigmoid is below one. -/
lemma sigmoid_lt_one (x : ℝ) : sigmoid x < 1 := by
  unfold sigmoid
  have h : (0:ℝ) < 1 + Real.exp (-x) := by
    have := Real.exp_pos (-x)
    linarith
  rw [div_lt_one h]
  have := Real.exp_pos (-x)
  linarith

/-- Accumulating per-batch losses of a fixed model by a left fold is the sum
of the mapped losses. -/
lemma foldl_eval_losses {H : ℕ} (m : Model H) :
    ∀ (data : List Batch) (a : ℝ),
    data.foldl (fun s b => s + batch_loss m b) a
      = a + (data.map fun b => batch_loss m b).sum := by
  intro data
  induction data with
  | nil => intro a; simp
  | cons b t ih =>
    intro a
    simp only [List.foldl_cons, List.map_cons, List.sum_cons, ih]
    ring

/-- Accumulating per-batch losses across optimizer steps by a left fold is the
sum of the spec-side `train_losses`. -/
lemma foldl_train_losses {H : ℕ} (step : Model H → Batch → Model H) :
    ∀ (data : List Batch) (m : Model H) (a : ℝ),
    (data.foldl (fun p b => (step p.1 b, p.2 + batch_loss p.1 b)) (m, a)).2
      = a + (train_losses step m data).sum := by
  intro data
  induction data with
  | nil => intro m a; simp [train_losses]
  | cons b t ih =>
    intro m a
    simp only [List.foldl_cons]
    rw [ih]
    simp only [train_losses, List.sum_cons, batch_loss]
    ring

/-- The sigmoid inverts the logit on `(0,1)`. -/
lemma sigmoid_logit {y : ℝ} (h0 : 0 < y) (h1 : y < 1) :
    sigmoid (Real.log y - Real.log (1 - y)) = y := by
  unfold sigmoid
  rw [neg_sub, Real.exp_sub, Real.exp_log (by linarith), Real.exp_log h0]
  rw [show 1 + (1 - y) / y = 1 / y from by field_simp]
  simp

/-- The accumulator returned by the forward direction of `logit_normalize` on
the constant-128 one-dimensional input. -/
lemma logit_normalize_fwd128_snd :
    (logit_normalize (fun _ : Fin 1 => (128:ℝ)) 0 false).2
      = -Real.log 256 + 2 * Real.log 2 := by
  have hz2 : (128:ℝ) / 256 * (1 - 1e-5) + 1e-5 * 0.5 = 1/2 := by norm_num
  have hhalf : Real.log ((1:ℝ)/2) = -Real.log 2 := by
    rw [one_div, Real.log_inv]
  simp only [logit_normalize, Bool.false_eq_true, if_false]
  rw [Fin.sum_univ_one]
  simp only [hz2]
  rw [show (1:ℝ) - 1/2 = 1/2 by norm_num, hhalf]
  push_cast
  ring

/-- The `z` returned by the forward direction of `logit_normalize` on the
constant-128 one-dimensional input is the zero vector. -/
lemma logit_normalize_fwd128_fst :
    (logit_normalize (fun _ : Fin 1 => (128:ℝ)) 0 false).1 = fun _ => 0 := by
  have hz2 : (128:ℝ) / 256 * (1 - 1e-5) + 1e-5 * 0.5 = 1/2 := by norm_num
  funext i
  simp only [logit_normalize, Bool.false_eq_true, if_false]
  simp only [hz2]
  rw [show (1:ℝ) - 1/2 = 1/2 by norm_num, sub_self]

end Lemmas

/-- C8: every coordinate of a sampled example lies in `[0, 256)`, for every
parameter state and every prior draw, because the reverse normalization ends
with a sigmoid (whose range is `(0,1)`) multiplied by 256. -/
theorem sample_output_in_range {H : ℕ} (m : Model H) (z0 : Fin 784 → ℝ)
    (i : Fin 784) :
    0 ≤ m.sample z0 i ∧ m.sample z0 i < 256 := by
  have h : m.sample z0 i = sigmoid ((m.flow.forward z0 0 true).1 i) * 256 := rfl
  rw [h]
  constructor
  · have := sigmoid_pos ((m.flow.forward z0 0 true).1 i)
    nlinarith
  · have := sigmoid_lt_one ((m.flow.forward z0 0 true).1 i)
    nlinarith

/-- C9: `epoch_iter` returns the accumulated per-batch loss divided by
`num_batches * ln 2 * 784`, in training mode (losses taken at the evolving
parameter states) as well as in evaluation mode, where each per-batch loss is
the negated mean of the per-example log-likelihoods. -/
theorem epoch_iter_returns_bpd {H : ℕ} (step : Model H → Batch → Model H)
    (m : Model H) (data : List Batch) :
    epoch_iter true step m data
        = (train_losses step m data).sum / (data.length * Real.log 2 * 784)
    ∧ epoch_iter false step m data
        = (data.map fun b =>
            -((b.map fun ex => m.forward ex.2 ex.1).sum / (b.length : ℝ))).sum
          / (data.length * Real.log 2 * 784) := by
  constructor
  · simp only [epoch_iter, if_true]
    rw [foldl_train_losses step data m 0, zero_add]
  · simp only [epoch_iter, Bool.false_eq_true, if_false]
    rw [foldl_eval_losses m data 0, zero_add]
    simp only [batch_loss]

/-- C5 counterexample: on the constant-128 one-dimensional input, the reverse
direction of `logit_normalize`, applied to the forward output with accumulator
`0`, does not return the negation of the forward accumulator increment — the
reverse Jacobian term is evaluated at the logit-space point instead of at the
corresponding `(0,1)`-space point. -/
theorem logit_normalize_reverse_ldj_not_negation :
    ¬ ((logit_normalize ((logit_normalize (fun _ : Fin 1 => (128:ℝ)) 0 false).1)
          0 true).2
        = -((logit_normalize (fun _ : Fin 1 => (128:ℝ)) 0 false).2)) := by
  intro hEq
  have hrev : (logit_normalize ((logit_normalize (fun _ : Fin 1 => (128:ℝ)) 0
      false).1) 0 true).2 = Real.log 256 := by
    rw [logit_normalize_fwd128_fst]
    simp only [logit_normalize, if_true]
    rw [Fin.sum_univ_one]
    simp [Real.log_zero, Real.log_one]
  rw [hrev, logit_normalize_fwd128_snd] at hEq
  have hlog2 : 0 < Real.log 2 := Real.log_pos (by norm_num)
  have : Real.log 256 = Real.log 256 - 2 * Real.log 2 := by linarith [hEq]
  linarith

/-- C5 (amended): the reverse direction of `logit_normalize` applies the
sigmoid and multiplies by 256, and adds `Σ (log z + log(1-z)) + log 256 * D`
to the accumulator, the forward Jacobian terms with their signs flipped but
evaluated at the logit-space input rather than at the corresponding
`(0,1)`-space point; composing it with the forward direction reproduces the
input only up to the `α = 1e-5` debiasing: the round trip returns
`(1-α)*x + 128*α`. -/
theorem logit_normalize_reverse_behavior {D : ℕ} (z x : Fin D → ℝ)
    (ldj ldj2 ldj3 : ℝ)
    (h : ∀ i, 0 < x i / 256 * (1 - 1e-5) + 1e-5 * 0.5
          ∧ x i / 256 * (1 - 1e-5) + 1e-5 * 0.5 < 1) :
    (logit_normalize z ldj true).1 = (fun i => sigmoid (z i) * 256)
    ∧ (logit_normalize z ldj true).2
        = ldj + (∑ i, (Real.log (z i) + Real.log (1 - z i))) + Real.log 256 * D
    ∧ (logit_normalize ((logit_normalize x ldj2 false).1) ldj3 true).1
        = fun i => (1 - 1e-5) * x i + 128 * 1e-5 := by
  refine ⟨rfl, rfl, ?_⟩
  funext i
  have hv : (logit_normalize ((logit_normalize x ldj2 false).1) ldj3 true).1 i
      = sigmoid (Real.log (x i / 256 * (1 - 1e-5) + 1e-5 * 0.5)
          - Real.log (1 - (x i / 256 * (1 - 1e-5) + 1e-5 * 0.5))) * 256 := rfl
  rw [hv, sigmoid_logit (h i).1 (h i).2]
  ring

/-- Witness for the amended C5 on the concrete constant-128 one-dimensional
input. -/
theorem logit_normalize_reverse_behavior_witness :
    (∀ i : Fin 1, 0 < (fun _ : Fin 1 => (128:ℝ)) i / 256 * (1 - 1e-5) + 1e-5 * 0.5
        ∧ (fun _ : Fin 1 => (128:ℝ)) i / 256 * (1 - 1e-5) + 1e-5 * 0.5 < 1)
    ∧ (logit_normalize ((logit_normalize (fun _ : Fin 1 => (128:ℝ)) 0 false).1)
          0 true).1
        = fun _ => (1 - 1e-5) * 128 + 128 * 1e-5 :=
  ⟨fun _ => by norm_num,
   (logit_normalize_reverse_behavior (fun _ => 0) (fun _ : Fin 1 => (128:ℝ)) 0 0 0
      (fun _ => by norm_num)).2.2⟩

/-- C1: for a flow built with the checkerboard masks and arbitrary coupling
sub-network weights, running `Flow.forward` on `(x, 0)` and then
`Flow.forward` with `reverse=true` on the resulting `z` (with accumulator `0`)
reconstructs `x` exactly. -/
theorem flow_forward_then_reverse_reconstructs {H : ℕ} (n_flows : ℕ)
    (nets : ℕ → SubNet 784 H × SubNet 784 H) (x : Fin 784 → ℝ) :
    ((Flow.make n_flows nets).forward
        (((Flow.make n_flows nets).forward x 0 false).1) 0 true).1 = x := by
  simp only [Flow.forward, if_true, Bool.false_eq_true, if_false]
  exact foldl_forward_then_reverse _ (flow_make_masks_binary n_flows nets) (x, 0) 0

/-- C2: immediately after construction every coupling sub-network's last
affine stage is zero, so the whole flow maps `(x, 0)` to `(x, 0)`: the flow is
the identity with zero log-determinant at initialization. -/
theorem flow_construct_is_identity {H : ℕ} (n_flows : ℕ)
    (w : ℕ → (Linear 784 H × Linear H H) × (Linear 784 H × Linear H H))
    (x : Fin 784 → ℝ) :
    (Flow.construct n_flows w).forward x 0 false = (x, 0) := by
  simp only [Flow.forward, Bool.false_eq_true, if_false]
  refine foldl_identity _ ?_ (x, 0)
  intro c hc z ldj
  obtain ⟨mask, w1, w2, rfl⟩ := flow_construct_layers n_flows w c hc
  exact coupling_construct_identity mask w1 w2 z ldj

/-- C3: in the forward direction, `Coupling.forward` feeds `mask*z` through the
sub-network, splits the `2*D` outputs into `scale_raw` (first `D`) and
`translate` (last `D`), takes `log_scale = tanh(scale_raw)`, and returns
`z' = mask*z + (1-mask)*(z*exp(log_scale) + translate)` together with
`ldj' = ldj + Σ_dims (1-mask)*log_scale`. -/
theorem coupling_forward_formula {D H : ℕ} (c : Coupling D H) (z : Fin D → ℝ)
    (ldj : ℝ) :
    (c.forward z ldj false).1 = (fun i =>
        c.mask i * z i + (1 - c.mask i) *
          (z i * Real.exp (Real.tanh (c.nn.apply (fun j => c.mask j * z j)
              ⟨i.1, by have := i.isLt; omega⟩)) +
            c.nn.apply (fun j => c.mask j * z j) ⟨D + i.1, by have := i.isLt; omega⟩))
    ∧ (c.forward z ldj false).2 = ldj + ∑ i, (1 - c.mask i) *
        Real.tanh (c.nn.apply (fun j => c.mask j * z j)
          ⟨i.1, by have := i.isLt; omega⟩) :=
  ⟨rfl, rfl⟩

/-- C4: the forward direction of `logit_normalize` returns
`ldj - log 256 * D + Σ_i (-log v_i - log (1 - v_i))` where
`v_i = (z_i/256)*(1-α) + α*0.5` is the value after the `/256` scaling and the
`α = 1e-5` debiasing but before the final logit transform. -/
theorem logit_normalize_forward_ldj {D : ℕ} (z : Fin D → ℝ) (ldj : ℝ) :
    (logit_normalize z ldj false).2 =
      ldj - Real.log 256 * D +
        ∑ i, (-Real.log (z i / 256 * (1 - 1e-5) + 1e-5 * 0.5)
              - Real.log (1 - (z i / 256 * (1 - 1e-5) + 1e-5 * 0.5))) :=
  rfl

/-- C6: the reverse direction of `Coupling.forward` returns the `ldj` argument
unchanged. -/
theorem coupling_reverse_ldj_unchanged {D H : ℕ} (c : Coupling D H)
    (z : Fin D → ℝ) (ldj : ℝ) :
    (c.forward z ldj true).2 = ldj :=
  rfl

/-- C7: a coordinate whose mask entry is `1` is returned unchanged by
`Coupling.forward`, in the forward as well as in the reverse direction. -/
theorem coupling_masked_coordinate_unchanged {D H : ℕ} (c : Coupling D H)
    (z : Fin D → ℝ) (ldj : ℝ) (reverse : Bool) (i : Fin D)
    (h : c.mask i = 1) :
    (c.forward z ldj reverse).1 i = z i := by
  cases reverse <;> simp [Coupling.forward, h]

/-- Witness for C7 on a concrete one-dimensional coupling layer. -/
theorem coupling_masked_coordinate_unchanged_witness :
    unitCoupling.mask 0 = 1
    ∧ (unitCoupling.forward (fun _ => 37) 5 false).1 0 = 37
    ∧ (unitCoupling.forward (fun _ => 37) 5 true).1 0 = 37 :=
  ⟨rfl,
   coupling_masked_coordinate_unchanged unitCoupling (fun _ => 37) 5 false 0 rfl,
   coupling_masked_coordinate_unchanged unitCoupling (fun _ => 37) 5 true 0 rfl⟩

/-- C10: the returned `z` component of `Coupling.forward`, `Flow.forward` and
`logit_normalize` does not depend on the incoming log-determinant accumulator,
in either direction; consequently `Model.sample`'s output equals the reverse
normalization of the reversed flow output at an arbitrary accumulator value. -/
theorem outputs_ignore_ldj :
    (∀ (D H : ℕ) (c : Coupling D H) (z : Fin D → ℝ) (l l' : ℝ) (r : Bool),
        (c.forward z l r).1 = (c.forward z l' r).1)
    ∧ (∀ (D H : ℕ) (f : Flow D H) (z : Fin D → ℝ) (l l' : ℝ) (r : Bool),
        (f.forward z l r).1 = (f.forward z l' r).1)
    ∧ (∀ (D : ℕ) (z : Fin D → ℝ) (l l' : ℝ) (r : Bool),
        (logit_normalize z l r).1 = (logit_normalize z l' r).1)
    ∧ (∀ (H : ℕ) (m : Model H) (z0 : Fin 784 → ℝ) (l : ℝ),
        m.sample z0 = (logit_normalize ((m.flow.forward z0 0 true).1) l true).1) := by
  refine ⟨fun D H c z l l' r => coupling_fst_congr c r l l' rfl, ?_, ?_, ?_⟩
  · intro D H f z l l' r
    cases r <;> simp only [Flow.forward, Bool.false_eq_true, if_false, if_true] <;>
      exact foldl_coupling_fst_congr _ _ (z, l) (z, l') rfl
  · intro D z l l' r
    cases r <;> rfl
  · intro H m z0 l
    rfl

end

end NF
